import Mathlib

/-!
Verification of gitweb-release-downloader (grd) against its specification.

The definitions below are a shallow embedding of the Rust sources
`src/main.rs`, `src/arguments.rs` and `src/models/json.rs`:
  * pure functions become Lean functions with the source's names;
  * `Option`/`Result` model Rust's `Option`/`Result`, and `Option … = none`
    also models the source's `process::exit(1)` error paths (the program
    terminates before producing the modelled value);
  * strings are Lean `String`s; string algorithms that the Rust code runs
    through the `regex` crate are embedded as executable functions on the
    underlying character lists (`String.data`), each annotated with the
    regular expression it implements.
-/

/- ===================== models/json.rs ===================== -/

/-- `Asset` from `src/models/json.rs`.  The field `id` (the GitHub numeric
asset id, an `i64` in the real wire shape) is used by
`get_github_asset_api_url` in `src/main.rs`. -/
structure Asset where
  browser_download_url : String
  name : String
  id : Int
  deriving Repr, DecidableEq

/-- `Release` from `src/models/json.rs`. -/
structure Release where
  tag_name : String
  prerelease : Bool
  assets : List Asset
  deriving Repr, DecidableEq

/- ===================== selection engine (src/main.rs) ===================== -/

/-- `find_release` from `src/main.rs` (lines 39-60): scan the releases in
order, skip a release when `release.prerelease && !allow_prerelease`,
otherwise return it when `tag` is absent, or when its `tag_name` equals the
requested tag. -/
def find_release (releases : List Release) (tag : Option String)
    (allow_prerelease : Bool) : Option Release :=
  match releases with
  | [] => none
  | release :: rest =>
    if release.prerelease && !allow_prerelease then
      find_release rest tag allow_prerelease
    else
      match tag with
      | none => some release
      | some t =>
        if release.tag_name == t then some release
        else find_release rest tag allow_prerelease

/-- The filter that `find_release` applies to a single release: the release
passes the prerelease filter and, when a tag is requested, carries exactly
that tag. -/
def release_passes (tag : Option String) (allow_prerelease : Bool)
    (release : Release) : Bool :=
  (!release.prerelease || allow_prerelease) &&
    (match tag with
     | none => true
     | some t => release.tag_name == t)

/-- `find_asset` from `src/main.rs` (lines 62-73): resolve the release with
`find_release`, then return the first asset whose name the pattern matches.
The compiled regular expression is abstracted as its matching function
`asset_name_pattern : String → Bool` (`Regex::is_match`). -/
def find_asset (releases : List Release) (tag : Option String)
    (allow_prerelease : Bool) (asset_name_pattern : String → Bool) :
    Option Asset :=
  match find_release releases tag allow_prerelease with
  | none => none
  | some release => release.assets.find? (fun asset => asset_name_pattern asset.name)

/-- `find_assets_in_release` from `src/main.rs` (lines 75-83): all assets of
the release whose name the pattern matches, in the release's order. -/
def find_assets_in_release (release : Release)
    (asset_name_pattern : String → Bool) : List Asset :=
  release.assets.filter (fun asset => asset_name_pattern asset.name)

/-- The release that `print_assets` (`src/main.rs` lines 288-313) lists the
assets of: `find_release` invoked with `allow_prerelease =
assets_query_args.tag.is_some()`. -/
def print_assets_release (releases : List Release) (tag : Option String) :
    Option Release :=
  find_release releases tag tag.isSome

/-- The tag lines printed by `print_releases` (`src/main.rs` lines 274-286):
filter by the prerelease policy, then take `count`, then print each
`tag_name`. -/
def print_releases_output (releases : List Release) (allow_prerelease : Bool)
    (count : Nat) : List String :=
  (((releases.filter (fun release => !release.prerelease || allow_prerelease)).take
      count).map (fun release => release.tag_name))

/-- Unanchored occurrence of `pat` as a contiguous substring of a character
list (the semantics of an unanchored `Regex::is_match` for a pattern made of
literal characters only). -/
def containsSub (pat : List Char) : List Char → Bool
  | [] => pat.isEmpty
  | c :: rest => pat.isPrefixOf (c :: rest) || containsSub pat rest

/-- Matching function of the compiled regular expression "a\." (a literal
`a` followed by a literal dot); `Regex::is_match` is unanchored, so it holds
exactly when "a." occurs as a substring of the input. -/
def regex_a_dot_is_match (s : String) : Bool :=
  containsSub ("a.".data) s.data

/- ===================== selection lemmas ===================== -/

theorem find_release_eq_find? (releases : List Release) (tag : Option String)
    (allow_prerelease : Bool) :
    find_release releases tag allow_prerelease =
      releases.find? (release_passes tag allow_prerelease) := by
  induction releases with
  | nil => rfl
  | cons release rest ih =>
    by_cases hskip : release.prerelease && !allow_prerelease
    · have hpass : release_passes tag allow_prerelease release = false := by
        cases hp : release.prerelease <;> cases ha : allow_prerelease <;>
          simp_all [release_passes]
      rw [List.find?_cons_of_neg _ (by simp [hpass])]
      simp [find_release, hskip, ih]
    · have hfilter : (!release.prerelease || allow_prerelease) = true := by
        cases hp : release.prerelease <;> cases ha : allow_prerelease <;> simp_all
      cases tag with
      | none =>
        rw [List.find?_cons_of_pos _ (by simp [release_passes, hfilter])]
        simp [find_release, hskip]
      | some t =>
        by_cases htag : release.tag_name == t
        · rw [List.find?_cons_of_pos _ (by simp [release_passes, hfilter, htag])]
          simp [find_release, hskip, htag]
        · rw [List.find?_cons_of_neg _ (by simp [release_passes, htag])]
          simp [find_release, hskip, htag, ih]

/- ===================== claims C1, C2, C7, C10 ===================== -/

/-- Claim C1: for every release list, optional tag and `allow_prerelease`
flag, `find_release` returns the first release, in the list's given order,
that passes the prerelease filter and, when a tag is given, has `tag_name`
exactly equal to it (`release_passes`); it returns `none` when no release
satisfies both constraints — in particular when the only release carrying
the requested tag is a prerelease and `allow_prerelease` is false. -/
theorem grd_C1_find_release_first_passing (releases : List Release)
    (tag : Option String) (allow_prerelease : Bool) :
    find_release releases tag allow_prerelease =
      releases.find? (release_passes tag allow_prerelease) ∧
    find_release [{ tag_name := "v1.0", prerelease := true, assets := [] }]
      (some "v1.0") false = none :=
  ⟨find_release_eq_find? releases tag allow_prerelease, rfl⟩

/-- The release and assets of the worked example of claim C2. -/
def c2_asset_zip : Asset :=
  { browser_download_url := "u1", name := "a.zip", id := 1 }

def c2_asset_tar : Asset :=
  { browser_download_url := "u2", name := "a.tar.gz", id := 2 }

def c2_release : Release :=
  { tag_name := "v1", prerelease := false, assets := [c2_asset_zip, c2_asset_tar] }

/-- Claim C2: `find_asset` first resolves the release via `find_release`,
then returns the first asset, in that release's given asset order, whose
name the compiled pattern matches; `none` when no release or no asset
qualifies; and on assets ["a.zip", "a.tar.gz"] with the unanchored pattern
"a\." the first matching asset "a.zip" wins. -/
theorem grd_C2_find_asset (releases : List Release) (tag : Option String)
    (allow_prerelease : Bool) (asset_name_pattern : String → Bool) :
    (∀ release, find_release releases tag allow_prerelease = some release →
      find_asset releases tag allow_prerelease asset_name_pattern =
        release.assets.find? (fun asset => asset_name_pattern asset.name)) ∧
    (find_release releases tag allow_prerelease = none →
      find_asset releases tag allow_prerelease asset_name_pattern = none) ∧
    find_asset [c2_release] none false regex_a_dot_is_match = some c2_asset_zip := by
  refine ⟨?_, ?_, ?_⟩
  · intro release h
    simp [find_asset, h]
  · intro h
    simp [find_asset, h]
  · rfl

/-- Witness for claim C2: the worked example instantiates the first
conjunct of the theorem with its hypothesis discharged concretely. -/
theorem grd_C2_find_asset_witness :
    find_asset [c2_release] none false regex_a_dot_is_match =
      c2_release.assets.find? (fun asset => regex_a_dot_is_match asset.name) :=
  (grd_C2_find_asset [c2_release] none false regex_a_dot_is_match).1 c2_release rfl

/-- Claim C7: the release whose assets the assets query lists is chosen
with `allow_prerelease` equal to whether an explicit tag was supplied:
without a tag the listed release is the first non-prerelease one, and with
an explicit tag it is the first release carrying that tag even if it is a
prerelease. -/
theorem grd_C7_assets_query_prerelease_policy (releases : List Release)
    (t : String) :
    print_assets_release releases none =
      releases.find? (fun release => !release.prerelease) ∧
    print_assets_release releases (some t) =
      releases.find? (fun release => release.tag_name == t) := by
  have h1 : release_passes none false = fun release => !release.prerelease := by
    funext release
    simp [release_passes]
  have h2 : release_passes (some t) true =
      fun release => release.tag_name == t := by
    funext release
    simp [release_passes]
  constructor
  · show find_release releases none false = _
    rw [find_release_eq_find?, h1]
  · show find_release releases (some t) true = _
    rw [find_release_eq_find?, h2]

/-- Claim C10: the releases query applies the count limit after the
prerelease filter: the printed lines are the tags of the first
`min count k` releases passing the filter (`k` the number of passing
releases), and a release skipped by the filter never consumes a unit of
the count. -/
theorem grd_C10_count_after_filter (releases : List Release)
    (allow_prerelease : Bool) (count : Nat) (release : Release)
    (hcount : 1 ≤ count) :
    print_releases_output releases allow_prerelease count =
      (((releases.filter
          (fun r => !r.prerelease || allow_prerelease)).take count).map
        (fun r => r.tag_name)) ∧
    (print_releases_output releases allow_prerelease count).length =
      min count
        ((releases.filter (fun r => !r.prerelease || allow_prerelease)).length) ∧
    ((!release.prerelease || allow_prerelease) = false →
      print_releases_output (release :: releases) allow_prerelease count =
        print_releases_output releases allow_prerelease count) := by
  refine ⟨rfl, ?_, ?_⟩
  · simp [print_releases_output]
  · intro h
    have hf : (release :: releases).filter
          (fun r => !r.prerelease || allow_prerelease) =
        releases.filter (fun r => !r.prerelease || allow_prerelease) :=
      List.filter_cons_of_neg (by simp [h])
    simp [print_releases_output, hf]

/-- Witness for claim C10: a prerelease in front of the list does not
consume a unit of the count when prereleases are filtered out. -/
theorem grd_C10_count_after_filter_witness :
    print_releases_output
        ({ tag_name := "pre2", prerelease := true, assets := [] } ::
          [{ tag_name := "pre1", prerelease := true, assets := [] },
           { tag_name := "v1", prerelease := false, assets := [] }]) false 1 =
      print_releases_output
        [{ tag_name := "pre1", prerelease := true, assets := [] },
         { tag_name := "v1", prerelease := false, assets := [] }] false 1 :=
  (grd_C10_count_after_filter
      [{ tag_name := "pre1", prerelease := true, assets := [] },
       { tag_name := "v1", prerelease := false, assets := [] }] false 1
      { tag_name := "pre2", prerelease := true, assets := [] }
      (by decide)).2.2 (by decide)

/- ===================== transfer engine (src/main.rs) ===================== -/

/-- Cumulative byte counts reported to the progress bar: one entry per
chunk, each the running total `bytes_downloaded` after that chunk. -/
def cumulative_counts (start : Nat) : List Nat → List Nat
  | [] => []
  | size :: rest => (start + size) :: cumulative_counts (start + size) rest

/-- The loop of `stream_response_into_file` (`src/main.rs` lines 243-271),
run over an idealized byte stream that always serves `min 8192 remaining`
bytes per `read` call: each iteration reads up to 8192 bytes into the
buffer, breaks on a zero-length read, writes the chunk to the file, adds
the read size to `bytes_downloaded` and reports the new total.  The result
collects, in order, the chunks written and the totals reported. -/
def stream_go {α : Type} (bytes : List α) (bytes_downloaded : Nat) :
    List (List α) × List Nat :=
  if hb : bytes.isEmpty then ([], [])
  else
    let chunk := bytes.take 8192
    let r := stream_go (bytes.drop 8192) (bytes_downloaded + chunk.length)
    (chunk :: r.1, (bytes_downloaded + chunk.length) :: r.2)
termination_by bytes.length
decreasing_by
  have h1 : bytes ≠ [] := by simpa using hb
  have h2 : 0 < bytes.length := List.length_pos.mpr h1
  simp only [List.length_drop]
  omega

/-- `stream_response_into_file` from `src/main.rs` (lines 231-272): the
chunk writes and, when a progress bar is attached, the reported cumulative
counts (`pb.set_position` calls). -/
def stream_response_into_file {α : Type} (bytes : List α)
    (progress_attached : Bool) : List (List α) × List Nat :=
  let r := stream_go bytes 0
  (r.1, if progress_attached then r.2 else [])

theorem stream_go_nil {α : Type} (n : Nat) :
    stream_go ([] : List α) n = ([], []) := by
  rw [stream_go]
  rfl

theorem stream_go_cons {α : Type} (bytes : List α) (n : Nat)
    (h : bytes ≠ []) :
    stream_go bytes n =
      ((bytes.take 8192) ::
          (stream_go (bytes.drop 8192) (n + (bytes.take 8192).length)).1,
        (n + (bytes.take 8192).length) ::
          (stream_go (bytes.drop 8192) (n + (bytes.take 8192).length)).2) := by
  rw [stream_go]
  simp [h]

theorem stream_go_spec {α : Type} :
    ∀ (k : Nat) (bytes : List α), bytes.length ≤ k → ∀ (n : Nat),
      (stream_go bytes n).1.flatten = bytes ∧
      (∀ w ∈ (stream_go bytes n).1, w ≠ [] ∧ w.length ≤ 8192) ∧
      (∀ w ∈ (stream_go bytes n).1.dropLast, w.length = 8192) ∧
      (stream_go bytes n).2 =
        cumulative_counts n ((stream_go bytes n).1.map List.length) := by
  intro k
  induction k with
  | zero =>
    intro bytes hlen n
    have hb : bytes = [] := List.eq_nil_of_length_eq_zero (Nat.le_zero.mp hlen)
    subst hb
    simp [stream_go_nil, cumulative_counts]
  | succ k ih =>
    intro bytes hlen n
    by_cases hb : bytes = []
    · subst hb
      simp [stream_go_nil, cumulative_counts]
    · have hpos : 0 < bytes.length := List.length_pos.mpr hb
      have hdrop : (bytes.drop 8192).length ≤ k := by
        simp only [List.length_drop]
        omega
      have htail := ih (bytes.drop 8192) hdrop (n + (bytes.take 8192).length)
      rw [stream_go_cons bytes n hb]
      set r := stream_go (bytes.drop 8192) (n + (bytes.take 8192).length) with hr
      have hchunk_ne : bytes.take 8192 ≠ [] := by
        rw [Ne, List.take_eq_nil_iff]
        push_neg
        exact ⟨by omega, hb⟩
      have hchunk_le : (bytes.take 8192).length ≤ 8192 := by
        simp only [List.length_take]
        omega
      refine ⟨?_, ?_, ?_, ?_⟩
      · show (List.take 8192 bytes :: r.1).flatten = bytes
        rw [List.flatten_cons, htail.1, List.take_append_drop]
      · intro w hw
        rcases List.mem_cons.mp hw with hw | hw
        · exact hw ▸ ⟨hchunk_ne, hchunk_le⟩
        · exact htail.2.1 w hw
      · intro w hw
        by_cases hr1 : r.1 = []
        · simp [hr1] at hw
        · rw [List.dropLast_cons_of_ne_nil hr1] at hw
          rcases List.mem_cons.mp hw with hw | hw
          · -- the head chunk is followed by at least one more chunk, so the
            -- stream still had more than 8192 bytes and the read was full
            have hrest_ne : bytes.drop 8192 ≠ [] := by
              intro hnil
              rw [hr, hnil, stream_go_nil] at hr1
              exact hr1 rfl
            have hlong : 8192 < bytes.length := by
              by_contra hle
              push_neg at hle
              exact hrest_ne (List.drop_eq_nil_of_le hle)
            subst hw
            simp only [List.length_take]
            omega
          · exact htail.2.2.1 w hw
      · simp only [List.map_cons, cumulative_counts]
        exact congrArg _ htail.2.2.2

/-- Claim C8: the transfer engine reads 8192-byte chunks until a zero-length
read; in order, every chunk is written before the next read, their
concatenation is the whole stream, every written chunk is non-empty and at
most 8192 bytes, every chunk but the last is exactly 8192 bytes, and when a
progress reporter is attached the cumulative byte count is reported after
every chunk; a stream of exactly 8193 bytes yields the two chunk writes
8192 and 1 with reported totals 8192 then 8193, and an empty stream yields
zero chunk writes (the file content, the concatenation of the writes, has
length 0). -/
theorem grd_C8_stream_response_into_file {α : Type} (bytes : List α)
    (progress_attached : Bool) (a : α) :
    (stream_response_into_file bytes progress_attached).1.flatten = bytes ∧
    (∀ w ∈ (stream_response_into_file bytes progress_attached).1,
      w ≠ [] ∧ w.length ≤ 8192) ∧
    (∀ w ∈ (stream_response_into_file bytes progress_attached).1.dropLast,
      w.length = 8192) ∧
    (progress_attached = true →
      (stream_response_into_file bytes progress_attached).2 =
        cumulative_counts 0
          ((stream_response_into_file bytes progress_attached).1.map
            List.length)) ∧
    (progress_attached = false →
      (stream_response_into_file bytes progress_attached).2 = []) ∧
    stream_response_into_file (List.replicate 8193 a) true =
      ([List.replicate 8192 a, [a]], [8192, 8193]) ∧
    stream_response_into_file ([] : List α) true = ([], []) := by
  have hspec := stream_go_spec bytes.length bytes (Nat.le_refl _) 0
  have e1 : stream_go (List.replicate 8193 a) 0 =
      ([List.replicate 8192 a, [a]], [8192, 8193]) := by
    rw [stream_go_cons _ _
      (List.ne_nil_of_length_pos (by rw [List.length_replicate]; omega))]
    have htake : (List.replicate 8193 a).take 8192 = List.replicate 8192 a := by
      rw [List.take_replicate]
      norm_num
    have hdrop : (List.replicate 8193 a).drop 8192 = [a] := by
      rw [List.drop_replicate]
      norm_num
    rw [htake, hdrop]
    rw [stream_go_cons [a] _ (by simp)]
    have htake2 : ([a] : List α).take 8192 = [a] :=
      List.take_of_length_le (by simp)
    have hdrop2 : ([a] : List α).drop 8192 = [] :=
      List.drop_eq_nil_of_le (by simp)
    rw [htake2, hdrop2, stream_go_nil, List.length_replicate]
    rfl
  refine ⟨?_, ?_, ?_, ?_, ?_, ?_, ?_⟩
  · exact hspec.1
  · exact hspec.2.1
  · exact hspec.2.2.1
  · intro h
    simp only [stream_response_into_file, h, if_pos]
    exact hspec.2.2.2
  · intro h
    simp [stream_response_into_file, h]
  · simp only [stream_response_into_file, e1, if_pos]
  · simp only [stream_response_into_file, stream_go_nil, if_pos]

/-- Witness for claim C8: the 8193-byte scenario, instantiated at a stream
of 8193 zero bytes. -/
theorem grd_C8_stream_response_into_file_witness :
    stream_response_into_file (List.replicate 8193 (0 : Nat)) true =
      ([List.replicate 8192 (0 : Nat), [0]], [8192, 8193]) :=
  (grd_C8_stream_response_into_file (List.replicate 8193 (0 : Nat)) true
    0).2.2.2.2.2.1

/- ===================== character-list helpers ===================== -/

/-- Strip a literal prefix from a character list, returning the remainder
when the prefix is present and `none` otherwise. -/
def stripPrefixCh : List Char → List Char → Option (List Char)
  | [], s => some s
  | _ :: _, [] => none
  | p :: ps, c :: cs => if p = c then stripPrefixCh ps cs else none

/-- First-occurrence split: `splitOnceCh sep l = some (a, b)` when
`l = a ++ sep :: b` with `sep ∉ a`, and `none` when `sep ∉ l` (the
semantics of Rust's `str::split_once`). -/
def splitOnceCh (sep : Char) : List Char → Option (List Char × List Char)
  | [] => none
  | c :: rest =>
    if c = sep then some ([], rest)
    else
      match splitOnceCh sep rest with
      | none => none
      | some (a, b) => some (c :: a, b)

theorem stripPrefixCh_append (p s : List Char) :
    stripPrefixCh p (p ++ s) = some s := by
  induction p with
  | nil => rfl
  | cons c ps ih => simp [stripPrefixCh, ih]

theorem splitOnceCh_eq_none_iff (sep : Char) (l : List Char) :
    splitOnceCh sep l = none ↔ sep ∉ l := by
  induction l with
  | nil => simp [splitOnceCh]
  | cons c rest ih =>
    by_cases hc : c = sep
    · simp [splitOnceCh, hc]
    · rw [splitOnceCh, if_neg hc]
      cases hs : splitOnceCh sep rest with
      | none =>
        have h1 := ih.mp hs
        have h2 : ¬sep = c := fun h2 => hc h2.symm
        simp [List.mem_cons, h1, h2]
      | some p =>
        have : sep ∈ rest := by
          by_contra hmem
          rw [ih.mpr hmem] at hs
          cases hs
        simp [this]

theorem splitOnceCh_append (sep : Char) (xs ys : List Char)
    (h : sep ∉ xs) : splitOnceCh sep (xs ++ sep :: ys) = some (xs, ys) := by
  induction xs with
  | nil => simp [splitOnceCh]
  | cons c rest ih =>
    have hc : c ≠ sep := fun hcc => h (hcc ▸ List.mem_cons_self c rest)
    have hrest : sep ∉ rest := fun hmem => h (List.mem_cons_of_mem c hmem)
    simp [splitOnceCh, hc, ih hrest]

/- ===================== arguments.rs: data model ===================== -/

/-- `GitWebsite` from `src/arguments.rs`. -/
inductive GitWebsite where
  | GitHub
  | Gitea
  | GitLab
  deriving Repr, DecidableEq

/-- `Repository` from `src/arguments.rs`: the normalized repository
descriptor.  (The `headers` and `ip_type` the binary also carries are
passed separately where needed; they do not take part in parsing.) -/
structure Repository where
  website : GitWebsite
  owner : String
  name : String
  origin : String
  sub_path : String
  passed_string : String
  deriving Repr, DecidableEq

/- ===================== claim C3: asset-fetch request ===================== -/

/-- `USERAGENT` from `src/main.rs`. -/
def USERAGENT : String := "gitweb-release-downloader"

/-- `get_scheme_from_repository_string` from `src/main.rs` (lines 85-92):
"http" exactly when the raw repository string starts with "http://",
otherwise "https". -/
def get_scheme_from_repository_string (url : String) : String :=
  if "http://".data.isPrefixOf url.data then "http" else "https"

/-- `get_github_asset_api_url` from `src/main.rs` (lines 315-317).  Note
the hard-coded "https": unlike `get_releases_api_url`, this URL ignores
`get_scheme_from_repository_string`. -/
def get_github_asset_api_url (owner : String) (repository : String)
    (asset_id : Int) : String :=
  "https://api.github.com/repos/" ++ owner ++ "/" ++ repository ++
    "/releases/assets/" ++ toString asset_id

/-- The HTTP GET that `download_assets` issues for the asset bytes: its URL
and its full extra-header list. -/
structure AssetFetch where
  url : String
  headers : List String
  deriving Repr, DecidableEq

/-- The asset-fetch request construction in `download_assets`
(`src/main.rs` lines 337-348): for GitHub, push
"Accept: application/octet-stream" onto the repository's header list and
use `get_github_asset_api_url`; otherwise use the asset's own
`browser_download_url` with the headers unchanged. -/
def download_asset_fetch (repository : Repository) (headers : List String)
    (asset : Asset) : AssetFetch :=
  match repository.website with
  | GitWebsite.GitHub =>
    { url := get_github_asset_api_url repository.owner repository.name asset.id
      headers := headers ++ ["Accept: application/octet-stream"] }
  | GitWebsite.Gitea => { url := asset.browser_download_url, headers := headers }
  | GitWebsite.GitLab => { url := asset.browser_download_url, headers := headers }

/-- A GitHub repository whose raw string starts with "http://". -/
def c3_repository : Repository :=
  { website := GitWebsite.GitHub, owner := "a", name := "b",
    origin := "github.com", sub_path := "/",
    passed_string := "http://github.com/a/b" }

def c3_asset : Asset :=
  { browser_download_url := "http://github.com/a/b/releases/download/v1/x.zip",
    name := "x.zip", id := 7 }

/-- Counterexample to claim C3 as stated: for a raw repository string
starting with "http://" the derived scheme is "http", yet the asset-fetch
URL built by the code is the hard-coded
"https://api.github.com/repos/{owner}/{name}/releases/assets/{assetId}",
not the claimed "{scheme}://api.github.com/…". -/
theorem grd_C3_scheme_counterexample :
    get_scheme_from_repository_string c3_repository.passed_string = "http" ∧
    (download_asset_fetch c3_repository [] c3_asset).url =
      "https://api.github.com/repos/a/b/releases/assets/7" ∧
    (download_asset_fetch c3_repository [] c3_asset).url ≠
      get_scheme_from_repository_string c3_repository.passed_string ++
        "://api.github.com/repos/a/b/releases/assets/7" := by
  refine ⟨rfl, rfl, ?_⟩
  decide

/-- Claim C3 (amended): for every GitHub repository reference and selected
asset, the asset-fetch request is sent to
"https://api.github.com/repos/{owner}/{name}/releases/assets/{assetId}"
— the scheme is always "https", regardless of the raw repository string —
and the request carries "Accept: application/octet-stream" appended to the
caller-supplied extra headers immediately before the fetch. -/
theorem grd_C3_github_asset_fetch (repository : Repository)
    (headers : List String) (asset : Asset)
    (h : repository.website = GitWebsite.GitHub) :
    (download_asset_fetch repository headers asset).url =
      "https://api.github.com/repos/" ++ repository.owner ++ "/" ++
        repository.name ++ "/releases/assets/" ++ toString asset.id ∧
    (download_asset_fetch repository headers asset).headers =
      headers ++ ["Accept: application/octet-stream"] := by
  cases repository with
  | mk website owner name origin sub_path passed_string =>
    cases h
    exact ⟨rfl, rfl⟩

/-- Witness for the amended claim C3, at a concrete repository and asset. -/
theorem grd_C3_github_asset_fetch_witness :
    (download_asset_fetch c3_repository [] c3_asset).url =
      "https://api.github.com/repos/" ++ c3_repository.owner ++ "/" ++
        c3_repository.name ++ "/releases/assets/" ++ toString c3_asset.id ∧
    (download_asset_fetch c3_repository [] c3_asset).headers =
      [] ++ ["Accept: application/octet-stream"] :=
  grd_C3_github_asset_fetch c3_repository [] c3_asset rfl

/- ===================== claim C5: platform inference ===================== -/

/-- The optional scheme stripping done by the regex fragment
`(https?://)?` at the start of the anchored patterns of `src/arguments.rs`:
remove a leading "http://" or "https://" when present.  (The two literal
alternatives are disjoint, and a string carrying one of them can never
match the remainder of any of those patterns without the scheme group, so
stripping first is exactly the regex's backtracking behavior: the patterns'
next element is either a host that cannot contain '/' but must contain
either a dot or the initial letter 'g'.) -/
def scheme_strip (cs : List Char) : List Char :=
  match stripPrefixCh "http://".data cs with
  | some rest => rest
  | none =>
    match stripPrefixCh "https://".data cs with
    | some rest => rest
    | none => cs

/-- One step of `guess_website_type`: the test of the anchored, unescaped
pattern `^(https?://)?{head}.{tail}…` after the scheme has been stripped —
`head` ("github" or "gitlab"), then ONE ARBITRARY character (the unescaped
regex dot of `src/arguments.rs` lines 267-273), then `tail` ("com/").  The
trailing `.*` of the patterns matches anything, including nothing. -/
def guess_host_matches (head : List Char) (tail : List Char)
    (cs : List Char) : Bool :=
  match stripPrefixCh head cs with
  | none => false
  | some rest =>
    match rest with
    | [] => false
    | _ :: rest2 => (stripPrefixCh tail rest2).isSome

/-- `guess_website_type` from `src/arguments.rs` (lines 266-290): test the
GitHub pattern `^(https?://)?github.com/.*` first, then the GitLab pattern
`^(https?://)?gitlab.com/.*`; in both patterns the dot before "com" is an
unescaped regex dot and matches any character. -/
def guess_website_type (repository_string : String) : Option GitWebsite :=
  let cs := scheme_strip repository_string.data
  if guess_host_matches "github".data "com/".data cs then
    some GitWebsite.GitHub
  else if guess_host_matches "gitlab".data "com/".data cs then
    some GitWebsite.GitLab
  else none

/-- Platform inference as the specification words it (claim C5): after an
optional scheme prefix, the string must start with the LITERAL
"github.com/" (else the literal "gitlab.com/", else no match).  This
definition follows the spec's words and is compared against the source's
`guess_website_type`. -/
def guess_website_type_spec (repository_string : String) : Option GitWebsite :=
  let cs := scheme_strip repository_string.data
  if "github.com/".data.isPrefixOf cs then some GitWebsite.GitHub
  else if "gitlab.com/".data.isPrefixOf cs then some GitWebsite.GitLab
  else none

/-- Claim C5: the three examples of the claim hold, but the claim's
"exactly when" fails: on the failing input "githubxcom/a/b" — which does
not start with the literal "github.com/" or "gitlab.com/" and so must map
to `none` per the claim — the code infers GitHub, because the dot in the
guess regexes of `src/arguments.rs` is unescaped and matches any
character (the sibling parse regex writes `github\.com`, showing the
intended literal).  The spec-worded inference returns `none` there. -/
theorem grd_C5_guess_website_type_unescaped_dot :
    guess_website_type "githubxcom/a/b" = some GitWebsite.GitHub ∧
    guess_website_type_spec "githubxcom/a/b" = none ∧
    guess_website_type "github.com/x/y" = some GitWebsite.GitHub ∧
    guess_website_type "gitlab.com/x/y" = some GitWebsite.GitLab ∧
    guess_website_type "example.com/x/y" = none ∧
    guess_website_type "https://github.com/x/y" = some GitWebsite.GitHub := by
  decide

/- ===================== claim C9: extra-header parsing ===================== -/

/-- The split of one caller-supplied header string at its first colon
(`header.split_once(":")` in `make_get_request`, `src/main.rs` line 195),
yielding the header name and value. -/
def split_header (header : String) : Option (String × String) :=
  (splitOnceCh ':' header.data).map
    (fun p => (String.mk p.1, String.mk p.2))

/-- The HTTP GET request assembled by `make_get_request`: URL plus the
header pairs set on it, in call order. -/
structure GetRequest where
  url : String
  headers : List (String × String)
  deriving Repr, DecidableEq

/-- The header loop of `make_get_request` (`src/main.rs` lines 191-200):
process the caller-supplied header strings in order, splitting each at its
first colon; a string with no colon terminates the program
(`process::exit(1)`, modelled as `none`) before the request is ever
issued. -/
def set_headers_loop (headers : List String)
    (request : List (String × String)) : Option (List (String × String)) :=
  match headers with
  | [] => some request
  | header :: rest =>
    match split_header header with
    | none => none
    | some nv => set_headers_loop rest (request ++ [nv])

/-- `make_get_request` from `src/main.rs` (lines 185-203): start from the
fixed user-agent header, add each caller header, and only then perform the
network call (so `none` means the program exited on a malformed header
before any network call was made). -/
def make_get_request (url : String) (headers : List String) :
    Option GetRequest :=
  (set_headers_loop headers [("user-agent", USERAGENT)]).map
    (fun hs => { url := url, headers := hs })

theorem set_headers_loop_spec (headers : List String) :
    ∀ request : List (String × String),
      (set_headers_loop headers request = none ↔
        ∃ h ∈ headers, split_header h = none) ∧
      ∀ hs, set_headers_loop headers request = some hs →
        hs = request ++ headers.filterMap split_header ∧
        (headers.filterMap split_header).length = headers.length := by
  induction headers with
  | nil =>
    intro request
    refine ⟨by simp [set_headers_loop], ?_⟩
    intro hs h
    rw [set_headers_loop] at h
    cases h
    simp
  | cons hd tl ih =>
    intro request
    cases hsp : split_header hd with
    | none =>
      refine ⟨?_, ?_⟩
      · constructor
        · intro _
          exact ⟨hd, List.mem_cons_self hd tl, hsp⟩
        · intro _
          rw [set_headers_loop, hsp]
      · intro hs h
        rw [set_headers_loop, hsp] at h
        cases h
    | some nv =>
      have hstep : set_headers_loop (hd :: tl) request =
          set_headers_loop tl (request ++ [nv]) := by
        rw [set_headers_loop, hsp]
      refine ⟨?_, ?_⟩
      · rw [hstep, (ih (request ++ [nv])).1]
        constructor
        · rintro ⟨h, hmem, hnone⟩
          exact ⟨h, List.mem_cons_of_mem hd hmem, hnone⟩
        · rintro ⟨h, hmem, hnone⟩
          rcases List.mem_cons.mp hmem with rfl | hmem
          · rw [hsp] at hnone
            cases hnone
          · exact ⟨h, hmem, hnone⟩
      · intro hs h
        rw [hstep] at h
        rcases (ih (request ++ [nv])).2 hs h with ⟨h1, h2⟩
        refine ⟨?_, ?_⟩
        · rw [h1, List.filterMap_cons_some hsp, List.append_assoc]
          rfl
        · rw [List.filterMap_cons_some hsp]
          simp only [List.length_cons, h2, List.length_cons]

/-- Claim C9: each caller-supplied header entry is split into name and
value at its FIRST colon; an entry with no colon makes the invocation fail
(the modelled request is `none`: the program exits before any network
call); entries that do have a colon are never dropped — the request holds
the fixed user-agent header followed by one pair per caller entry, in
order.  The concrete entry "X-Test" (no colon) fails. -/
theorem grd_C9_header_parsing (url : String) (headers : List String) :
    (make_get_request url headers = none ↔
      ∃ h ∈ headers, (':' : Char) ∉ h.data) ∧
    (∀ request, make_get_request url headers = some request →
      request.url = url ∧
      request.headers =
        ("user-agent", USERAGENT) :: headers.filterMap split_header ∧
      (headers.filterMap split_header).length = headers.length) ∧
    (∀ header_name value : String, (':' : Char) ∉ header_name.data →
      split_header (header_name ++ ":" ++ value) =
        some (header_name, value)) ∧
    make_get_request url ["X-Test"] = none := by
  have hnone : ∀ h : String, split_header h = none ↔ (':' : Char) ∉ h.data := by
    intro h
    rw [split_header, Option.map_eq_none']
    exact splitOnceCh_eq_none_iff ':' h.data
  refine ⟨?_, ?_, ?_, ?_⟩
  · rw [make_get_request, Option.map_eq_none',
      (set_headers_loop_spec headers [("user-agent", USERAGENT)]).1]
    constructor
    · rintro ⟨h, hmem, hs⟩
      exact ⟨h, hmem, (hnone h).mp hs⟩
    · rintro ⟨h, hmem, hs⟩
      exact ⟨h, hmem, (hnone h).mpr hs⟩
  · intro request hreq
    rw [make_get_request] at hreq
    cases hloop : set_headers_loop headers [("user-agent", USERAGENT)] with
    | none => rw [hloop] at hreq; cases hreq
    | some hs =>
      rw [hloop] at hreq
      cases hreq
      rcases (set_headers_loop_spec headers
        [("user-agent", USERAGENT)]).2 hs hloop with ⟨h1, h2⟩
      exact ⟨rfl, by rw [h1]; rfl, h2⟩
  · intro header_name value hname
    have hdata : (header_name ++ ":" ++ value).data =
        header_name.data ++ ':' :: value.data := by
      simp [String.data_append]
    rw [split_header, hdata, splitOnceCh_append ':' _ _ hname]
    rfl
  · have : (':' : Char) ∉ "X-Test".data := by decide
    exact ((by
      rw [make_get_request, Option.map_eq_none',
        (set_headers_loop_spec ["X-Test"] [("user-agent", USERAGENT)]).1]
      exact ⟨"X-Test", List.mem_cons_self _ _, (hnone "X-Test").mpr this⟩) :
      make_get_request url ["X-Test"] = none)

/-- Witness for claim C9: the "X-Test" entry (no colon) makes the request
fail before any network call. -/
theorem grd_C9_header_parsing_witness :
    make_get_request "https://api.github.com/repos/a/b/releases" ["X-Test"] =
      none :=
  (grd_C9_header_parsing "https://api.github.com/repos/a/b/releases"
    ["X-Test"]).1.mpr ⟨"X-Test", List.mem_cons_self _ _, by decide⟩

/- ============ arguments.rs: repository parsing (claims C4, C6) ============ -/

/-- Split a character list at every occurrence of `sep` (the segmentation
that the anchored parsing regexes of `src/arguments.rs` induce on the path,
since none of their capture groups may contain '/'). -/
def splitCharList (sep : Char) : List Char → List (List Char)
  | [] => [[]]
  | c :: rest =>
    if c = sep then [] :: splitCharList sep rest
    else
      match splitCharList sep rest with
      | [] => [[c]]
      | g :: gs => (c :: g) :: gs

/-- The owner/name tail `(?P<owner>[^/]+)/(?P<name>[^/]+)$` shared by all
parsing regexes of `src/arguments.rs`: exactly two non-empty, slash-free
segments. -/
def match_owner_name (cs : List Char) : Option (List Char × List Char) :=
  match splitCharList '/' cs with
  | [a, b] => if a.isEmpty || b.isEmpty then none else some (a, b)
  | _ => none

/-- The optional origin prefix `((https?://)?github\.com/)?` of
`get_github_optional_origin_and_repository_regex` (`src/arguments.rs`
lines 71-79): its three literal alternatives are pairwise
position-disjoint, so at most one can be present. -/
def github_strip (cs : List Char) : Option (List Char) :=
  match stripPrefixCh "github.com/".data cs with
  | some rest => some rest
  | none =>
    match stripPrefixCh "http://github.com/".data cs with
    | some rest => some rest
    | none => stripPrefixCh "https://github.com/".data cs

/-- The GitHub parsing regex
`^((https?://)?github\.com/)?(?P<owner>[^/]+)/(?P<name>[^/]+)$`: the regex
engine first tries the optional origin group (greedy `?`), and backtracks
to leaving it unmatched when the rest of the string then fails — exactly
the `orElse` below. -/
def github_match (cs : List Char) : Option (List Char × List Char) :=
  match github_strip cs with
  | some rest =>
    match match_owner_name rest with
    | some pr => some pr
    | none => match_owner_name cs
  | none => match_owner_name cs

/-- Dot at a non-final position of the list (helper of `dotted`). -/
def dottedAux : List Char → Bool
  | [] => false
  | c :: rest => (decide (c = '.') && !rest.isEmpty) || dottedAux rest

/-- Whether a slash-free segment matches the origin pattern
`([^/]+\.)+[^/]+` of `get_gitea_origin_sub_path_and_repository_regex`
(`src/arguments.rs` lines 81-84): it must contain a dot that has at least
one character before it and one after it (the repeated group needs a
non-empty piece ending in '.', the final `[^/]+` a non-empty rest; both
pieces may themselves contain further dots, ':' — hence a port — or any
other non-'/' character). -/
def dotted (host : List Char) : Bool :=
  match host with
  | [] => false
  | _ :: rest => dottedAux rest

/-- The sub-path capture `(?P<sub_path>/(([^/]+)/)*)`: a leading '/'
followed by each intermediate segment with its trailing '/'. -/
def subPathOf (mids : List (List Char)) : List Char :=
  '/' :: (mids.map (fun m => m ++ ['/'])).flatten

/-- The Gitea/GitLab parsing regex
`^(https?://)?(?P<origin>([^/]+\.)+[^/]+)(?P<sub_path>/(([^/]+)/)*)(?P<owner>[^/]+)/(?P<name>[^/]+)$`
applied after the scheme has been stripped: since no capture may contain
'/', the origin is exactly the first '/'-separated segment (and must match
`dotted`), the name and owner are exactly the last two segments, every
segment must be non-empty, and everything in between becomes the
sub-path. -/
def owner_name_split (tail : List (List Char)) :
    Option (List (List Char) × List Char × List Char) :=
  match tail.reverse with
  | nm :: ow :: revMid => some (revMid.reverse, ow, nm)
  | _ => none

def gitea_core_parts (parts : List (List Char)) :
    Option (List Char × List Char × List Char × List Char) :=
  match parts with
  | [] => none
  | origin :: tail =>
    if dotted origin && (origin :: tail).all (fun p => !p.isEmpty) then
      match owner_name_split tail with
      | some mon => some (origin, subPathOf mon.1, mon.2.1, mon.2.2)
      | none => none
    else none

def gitea_core (rest : List Char) :
    Option (List Char × List Char × List Char × List Char) :=
  gitea_core_parts (splitCharList '/' rest)

/-- `get_gitea_origin_sub_path_and_repository_regex` (and, identically,
`get_gitlab_origin_sub_path_and_repository_regex`) as a matcher returning
the captures (origin, sub_path, owner, name). -/
def gitea_match (cs : List Char) :
    Option (List Char × List Char × List Char × List Char) :=
  gitea_core (scheme_strip cs)

/-- `ParseRepositoryError` from `src/arguments.rs`. -/
inductive ParseRepositoryError where
  | InvalidRepository (s : String)
  deriving Repr, DecidableEq

/-- `parse_repository` from `src/arguments.rs` (lines 107-159): apply the
website's regex; on a match build the `Repository` from the captures (for
GitHub, origin and sub-path are fixed), keeping the original string in
`passed_string`; otherwise `InvalidRepository`. -/
def parse_repository (repository_string : String)
    (website_type : GitWebsite) : Except ParseRepositoryError Repository :=
  match website_type with
  | GitWebsite.GitHub =>
    match github_match repository_string.data with
    | some (owner, name) =>
      Except.ok
        { website := website_type, owner := String.mk owner,
          name := String.mk name, origin := "github.com", sub_path := "/",
          passed_string := repository_string }
    | none =>
      Except.error (ParseRepositoryError.InvalidRepository repository_string)
  | GitWebsite.Gitea =>
    match gitea_match repository_string.data with
    | some (origin, sub_path, owner, name) =>
      Except.ok
        { website := website_type, owner := String.mk owner,
          name := String.mk name, origin := String.mk origin,
          sub_path := String.mk sub_path, passed_string := repository_string }
    | none =>
      Except.error (ParseRepositoryError.InvalidRepository repository_string)
  | GitWebsite.GitLab =>
    match gitea_match repository_string.data with
    | some (origin, sub_path, owner, name) =>
      Except.ok
        { website := website_type, owner := String.mk owner,
          name := String.mk name, origin := String.mk origin,
          sub_path := String.mk sub_path, passed_string := repository_string }
    | none =>
      Except.error (ParseRepositoryError.InvalidRepository repository_string)

/-- "host/seg1/.../segN/owner/name": the segments joined by single
slashes. -/
def slashPath : List String → String
  | [] => ""
  | [p] => p
  | p :: ps => p ++ "/" ++ slashPath ps

/-- The sub-path the specification predicts for intermediate segments
`segs`: "/seg1/.../segN/", i.e. "/" when `segs` is empty. -/
def subPathString (segs : List String) : String :=
  "/" ++ String.join (segs.map (fun s => s ++ "/"))

/-- Character-list counterpart of `slashPath`. -/
def joinSlash : List (List Char) → List Char
  | [] => []
  | [p] => p
  | p :: ps => p ++ '/' :: joinSlash ps

/- ============ parsing lemmas ============ -/

theorem stripPrefixCh_none_append (p s t : List Char)
    (h : stripPrefixCh p s = none) (hlen : p.length ≤ s.length) :
    stripPrefixCh p (s ++ t) = none := by
  induction p generalizing s with
  | nil => cases h
  | cons pc prest ih =>
    cases s with
    | nil => simp at hlen
    | cons c cs =>
      by_cases hc : pc = c
      · rw [stripPrefixCh, if_pos hc] at h
        rw [List.cons_append, stripPrefixCh, if_pos hc]
        exact ih cs h (by simpa using hlen)
      · rw [List.cons_append, stripPrefixCh, if_neg hc]

theorem stripPrefixCh_slash_head (q ys : List Char) (h : '/' ∉ ys) :
    stripPrefixCh ('/' :: q) ys = none := by
  cases ys with
  | nil => rfl
  | cons y ys2 =>
    have hy : ('/' : Char) ≠ y := fun hh => h (hh ▸ List.mem_cons_self y ys2)
    rw [stripPrefixCh, if_neg hy]

theorem stripPrefixCh_slash_block (p q xs ys : List Char)
    (hp : '/' ∉ p) (hx : '/' ∉ xs) :
    stripPrefixCh (p ++ '/' :: q) (xs ++ '/' :: ys) =
      if p = xs then stripPrefixCh q ys else none := by
  induction p generalizing xs with
  | nil =>
    cases xs with
    | nil => simp [stripPrefixCh]
    | cons x xs2 =>
      have hx1 : ('/' : Char) ≠ x :=
        fun h => hx (h ▸ List.mem_cons_self x xs2)
      rw [List.nil_append, List.cons_append, stripPrefixCh, if_neg hx1,
        if_neg (by simp)]
  | cons pc prest ih =>
    cases xs with
    | nil =>
      have hpc : pc ≠ '/' :=
        fun h => hp (h ▸ List.mem_cons_self pc prest)
      rw [List.nil_append, List.cons_append, stripPrefixCh, if_neg hpc,
        if_neg (by simp)]
    | cons x xs2 =>
      have hp2 : '/' ∉ prest := fun h => hp (List.mem_cons_of_mem pc h)
      have hx2 : '/' ∉ xs2 := fun h => hx (List.mem_cons_of_mem x h)
      rw [List.cons_append, List.cons_append, stripPrefixCh]
      by_cases hc : pc = x
      · rw [if_pos hc, ih xs2 hp2 hx2]
        by_cases he : prest = xs2
        · rw [if_pos he, if_pos (by rw [hc, he])]
        · rw [if_neg he, if_neg (by simp [hc, he])]
      · rw [if_neg hc, if_neg (by simp [hc])]

theorem splitCharList_ne_nil (sep : Char) (l : List Char) :
    splitCharList sep l ≠ [] := by
  cases l with
  | nil => simp [splitCharList]
  | cons c rest =>
    rw [splitCharList]
    by_cases hc : c = sep
    · simp [hc]
    · rw [if_neg hc]
      cases hrec : splitCharList sep rest with
      | nil => simp
      | cons g gs => simp

theorem splitCharList_no_sep (sep : Char) (xs : List Char) (h : sep ∉ xs) :
    splitCharList sep xs = [xs] := by
  induction xs with
  | nil => rfl
  | cons c rest ih =>
    have hc : c ≠ sep := fun hcc => h (hcc ▸ List.mem_cons_self c rest)
    have hrest : sep ∉ rest := fun hm => h (List.mem_cons_of_mem c hm)
    rw [splitCharList, if_neg hc, ih hrest]

theorem splitCharList_sep_append (sep : Char) (xs ys : List Char)
    (h : sep ∉ xs) :
    splitCharList sep (xs ++ sep :: ys) = xs :: splitCharList sep ys := by
  induction xs with
  | nil => simp [splitCharList]
  | cons c rest ih =>
    have hc : c ≠ sep := fun hcc => h (hcc ▸ List.mem_cons_self c rest)
    have hrest : sep ∉ rest := fun hm => h (List.mem_cons_of_mem c hm)
    rw [List.cons_append, splitCharList, if_neg hc, ih hrest]

theorem splitCharList_joinSlash (parts : List (List Char))
    (hne : parts ≠ []) (hs : ∀ p ∈ parts, '/' ∉ p) :
    splitCharList '/' (joinSlash parts) = parts := by
  induction parts with
  | nil => cases hne rfl
  | cons p ps ih =>
    cases ps with
    | nil =>
      exact splitCharList_no_sep '/' p (hs p (List.mem_cons_self p []))
    | cons q ps2 =>
      have hstep : joinSlash (p :: q :: ps2) = p ++ '/' :: joinSlash (q :: ps2) :=
        rfl
      rw [hstep, splitCharList_sep_append '/' _ _ (hs p (List.mem_cons_self p _)),
        ih (by simp) (fun x hx => hs x (List.mem_cons_of_mem p hx))]

theorem scheme_strip_http (rest : List Char) :
    scheme_strip ("http://".data ++ rest) = rest := by
  simp only [scheme_strip, stripPrefixCh_append]

theorem scheme_strip_https (rest : List Char) :
    scheme_strip ("https://".data ++ rest) = rest := by
  have h1 : stripPrefixCh "http://".data ("https://".data ++ rest) = none :=
    stripPrefixCh_none_append _ _ _ (by decide) (by decide)
  simp only [scheme_strip, h1, stripPrefixCh_append]

theorem scheme_strip_no_scheme (host rest : List Char) (hh : '/' ∉ host)
    (h1 : host ≠ "http:".data) (h2 : host ≠ "https:".data) :
    scheme_strip (host ++ '/' :: rest) = host ++ '/' :: rest := by
  have e1 : "http://".data = "http:".data ++ '/' :: ['/'] := by decide
  have s1 : stripPrefixCh "http://".data (host ++ '/' :: rest) = none := by
    rw [e1, stripPrefixCh_slash_block _ _ _ _ (by decide) hh,
      if_neg (fun h => h1 h.symm)]
  have e2 : "https://".data = "https:".data ++ '/' :: ['/'] := by decide
  have s2 : stripPrefixCh "https://".data (host ++ '/' :: rest) = none := by
    rw [e2, stripPrefixCh_slash_block _ _ _ _ (by decide) hh,
      if_neg (fun h => h2 h.symm)]
  simp only [scheme_strip, s1, s2]

theorem match_owner_name_pair (a b : List Char) (ha : a ≠ []) (hb : b ≠ [])
    (has : '/' ∉ a) (hbs : '/' ∉ b) :
    match_owner_name (a ++ '/' :: b) = some (a, b) := by
  have ha2 : a.isEmpty = false := by
    cases a with
    | nil => exact absurd rfl ha
    | cons c cs => rfl
  have hb2 : b.isEmpty = false := by
    cases b with
    | nil => exact absurd rfl hb
    | cons c cs => rfl
  simp only [match_owner_name, splitCharList_sep_append '/' a b has,
    splitCharList_no_sep '/' b hbs, ha2, hb2, Bool.or_self, Bool.false_or,
    if_neg (Bool.false_ne_true ∘ id)]

theorem match_owner_name_single (b : List Char) (hbs : '/' ∉ b) :
    match_owner_name b = none := by
  rw [match_owner_name, splitCharList_no_sep '/' b hbs]

theorem github_match_owner_name (a b : List Char) (ha : a ≠ []) (hb : b ≠ [])
    (has : '/' ∉ a) (hbs : '/' ∉ b) :
    github_match (a ++ '/' :: b) = some (a, b) := by
  by_cases hgh : a = "github.com".data
  · subst hgh
    have e2 : "github.com".data ++ '/' :: b = "github.com/".data ++ b := by
      have e : "github.com/".data = "github.com".data ++ ['/'] := by decide
      rw [e, List.append_assoc]
      rfl
    have h1 : stripPrefixCh "github.com/".data
        ("github.com".data ++ '/' :: b) = some b := by
      rw [e2, stripPrefixCh_append]
    simp only [github_match, github_strip, h1,
      match_owner_name_single b hbs]
    exact match_owner_name_pair _ b ha hb has hbs
  · have e1 : "github.com/".data = "github.com".data ++ '/' :: [] := by decide
    have s1 : stripPrefixCh "github.com/".data (a ++ '/' :: b) = none := by
      rw [e1, stripPrefixCh_slash_block _ _ _ _ (by decide) has,
        if_neg (fun h => hgh h.symm)]
    have e2 : "http://github.com/".data =
        "http:".data ++ '/' :: "/github.com/".data := by decide
    have s2 : stripPrefixCh "http://github.com/".data (a ++ '/' :: b) =
        none := by
      rw [e2, stripPrefixCh_slash_block _ _ _ _ (by decide) has]
      by_cases hx : "http:".data = a
      · rw [if_pos hx]
        exact stripPrefixCh_slash_head "github.com/".data b hbs
      · rw [if_neg hx]
    have e3 : "https://github.com/".data =
        "https:".data ++ '/' :: "/github.com/".data := by decide
    have s3 : stripPrefixCh "https://github.com/".data (a ++ '/' :: b) =
        none := by
      rw [e3, stripPrefixCh_slash_block _ _ _ _ (by decide) has]
      by_cases hx : "https:".data = a
      · rw [if_pos hx]
        exact stripPrefixCh_slash_head "github.com/".data b hbs
      · rw [if_neg hx]
    simp only [github_match, github_strip, s1, s2, s3]
    exact match_owner_name_pair a b ha hb has hbs

theorem dottedAux_append_dot (xs : List Char) (b : Char) (bs : List Char) :
    dottedAux (xs ++ '.' :: b :: bs) = true := by
  induction xs with
  | nil => simp [dottedAux]
  | cons c rest ih => simp [dottedAux, ih]

theorem dotted_decomp (A B : List Char) (hA : A ≠ []) (hB : B ≠ []) :
    dotted (A ++ '.' :: B) = true := by
  cases A with
  | nil => exact absurd rfl hA
  | cons a A2 =>
    cases B with
    | nil => exact absurd rfl hB
    | cons b B2 =>
      show dottedAux (A2 ++ '.' :: b :: B2) = true
      exact dottedAux_append_dot A2 b B2

theorem joinSlash_cons_of_ne (p : List Char) (ps : List (List Char))
    (h : ps ≠ []) : joinSlash (p :: ps) = p ++ '/' :: joinSlash ps := by
  cases ps with
  | nil => exact absurd rfl h
  | cons q ps2 => rfl

theorem gitea_core_complete (host : List Char) (mids : List (List Char))
    (owner name : List Char)
    (hdot : dotted host = true) (hh : '/' ∉ host)
    (hmids : ∀ m ∈ mids, m ≠ [] ∧ '/' ∉ m)
    (ho : owner ≠ []) (hos : '/' ∉ owner)
    (hn : name ≠ []) (hns : '/' ∉ name) :
    gitea_core (joinSlash (host :: (mids ++ [owner, name]))) =
      some (host, subPathOf mids, owner, name) := by
  have hsplit : splitCharList '/' (joinSlash (host :: (mids ++ [owner, name]))) =
      host :: (mids ++ [owner, name]) := by
    apply splitCharList_joinSlash
    · simp
    · intro p hp
      rcases List.mem_cons.mp hp with rfl | hp
      · exact hh
      · rcases List.mem_append.mp hp with hp | hp
        · exact (hmids p hp).2
        · rcases List.mem_cons.mp hp with rfl | hp
          · exact hos
          · rcases List.mem_cons.mp hp with rfl | hp
            · exact hns
            · cases hp
  have hhost_ne : host ≠ [] := by
    intro h
    rw [h] at hdot
    cases hdot
  have hall : ((host :: (mids ++ [owner, name])).all
      (fun p => !p.isEmpty)) = true := by
    rw [List.all_eq_true]
    intro p hp
    have hpne : p ≠ [] := by
      rcases List.mem_cons.mp hp with rfl | hp
      · exact hhost_ne
      · rcases List.mem_append.mp hp with hp | hp
        · exact (hmids p hp).1
        · rcases List.mem_cons.mp hp with rfl | hp
          · exact ho
          · rcases List.mem_cons.mp hp with rfl | hp
            · exact hn
            · cases hp
    cases p with
    | nil => exact absurd rfl hpne
    | cons c cs => rfl
  have hsplitmon : owner_name_split (mids ++ [owner, name]) =
      some (mids, owner, name) := by
    have hrev : (mids ++ [owner, name]).reverse =
        name :: owner :: mids.reverse := by
      simp
    simp only [owner_name_split, hrev, List.reverse_reverse]
  have key : ∀ cs : List Char,
      splitCharList '/' cs = host :: (mids ++ [owner, name]) →
      gitea_core cs = some (host, subPathOf mids, owner, name) := by
    intro cs hcs
    simp only [gitea_core, hcs, List.cons_append, gitea_core_parts, hdot,
      hall, hsplitmon, Bool.true_and, if_pos]
  exact key _ hsplit

theorem slashPath_data (parts : List String) :
    (slashPath parts).data = joinSlash (parts.map String.data) := by
  induction parts with
  | nil => rfl
  | cons p ps ih =>
    cases ps with
    | nil => rfl
    | cons q ps2 =>
      show (p ++ "/" ++ slashPath (q :: ps2)).data = _
      rw [String.data_append, String.data_append, ih]
      show p.data ++ ['/'] ++ joinSlash ((q :: ps2).map String.data) =
        p.data ++ '/' :: joinSlash ((q :: ps2).map String.data)
      rw [List.append_assoc]
      rfl

theorem string_foldl_append_data (L : List String) :
    ∀ acc : String,
      (L.foldl (fun r s => r ++ s) acc).data =
        acc.data ++ (L.map String.data).flatten := by
  induction L with
  | nil =>
    intro acc
    simp
  | cons s L2 ih =>
    intro acc
    rw [List.foldl_cons, ih (acc ++ s)]
    simp [String.data_append]

theorem string_join_data (L : List String) :
    (String.join L).data = (L.map String.data).flatten := by
  rw [String.join, string_foldl_append_data L ""]
  rfl

theorem subPathString_data (segs : List String) :
    (subPathString segs).data = subPathOf (segs.map String.data) := by
  rw [subPathString, String.data_append, string_join_data]
  show ['/'] ++ ((segs.map (fun s => s ++ "/")).map String.data).flatten =
    '/' :: ((segs.map String.data).map (fun m => m ++ ['/'])).flatten
  rw [List.map_map, List.map_map]
  have : (String.data ∘ fun s => s ++ "/") =
      ((fun m => m ++ ['/']) ∘ String.data) := by
    funext s
    show (s ++ "/").data = s.data ++ ['/']
    rw [String.data_append]
  rw [this]
  rfl

/-- Claim C6: for every pair of non-empty, slash-free strings `owner` and
`name`, parsing "<owner>/<name>" with explicit platform GitHub succeeds
and round-trips `owner` and `name` exactly, with origin fixed to
"github.com" and sub-path fixed to "/" — including when `owner` itself is
the string "github.com" (the regex first tries to treat it as the origin
prefix, the rest then fails to split into owner/name, and the engine
backtracks to the prefix-less alternative). -/
theorem grd_C6_github_owner_name_roundtrip (owner name : String)
    (ho : owner.data ≠ []) (hn : name.data ≠ [])
    (hos : '/' ∉ owner.data) (hns : '/' ∉ name.data) :
    parse_repository (owner ++ "/" ++ name) GitWebsite.GitHub =
      Except.ok
        { website := GitWebsite.GitHub, owner := owner, name := name,
          origin := "github.com", sub_path := "/",
          passed_string := owner ++ "/" ++ name } := by
  have hdata : (owner ++ "/" ++ name).data = owner.data ++ '/' :: name.data := by
    rw [String.data_append, String.data_append, List.append_assoc]
    rfl
  have hgm := github_match_owner_name owner.data name.data ho hn hos hns
  simp only [parse_repository, hdata, hgm]

/-- Witness for claim C6: the corner case owner = "github.com". -/
theorem grd_C6_github_owner_name_roundtrip_witness :
    parse_repository ("github.com" ++ "/" ++ "y") GitWebsite.GitHub =
      Except.ok
        { website := GitWebsite.GitHub, owner := "github.com", name := "y",
          origin := "github.com", sub_path := "/",
          passed_string := "github.com" ++ "/" ++ "y" } :=
  grd_C6_github_owner_name_roundtrip "github.com" "y" (by decide) (by decide)
    (by decide) (by decide)

/-- Claim C4: for every Gitea or GitLab raw repository string of the form
host/seg1/.../segN/owner/name with N ≥ 0 — host of the spec's shape
`host(.host)+(:port)?`, i.e. containing an interior dot, with any optional
port simply part of the host text; an optional "http://" or "https://"
scheme prefix; all segments non-empty and slash-free — parsing succeeds
with owner and name exactly the last two path segments, and the parsed
sub-path equal to "/seg1/.../segN/": a string that always starts and ends
with "/" and is exactly "/" when N = 0. -/
theorem grd_C4_gitea_gitlab_sub_path (scheme A B : String)
    (segs : List String) (owner name : String) (w : GitWebsite)
    (hscheme : scheme = "" ∨ scheme = "http://" ∨ scheme = "https://")
    (hw : w = GitWebsite.Gitea ∨ w = GitWebsite.GitLab)
    (hA : A.data ≠ []) (hAs : '/' ∉ A.data)
    (hB : B.data ≠ []) (hBs : '/' ∉ B.data)
    (hsegs : ∀ s ∈ segs, s.data ≠ [] ∧ '/' ∉ s.data)
    (ho : owner.data ≠ []) (hos : '/' ∉ owner.data)
    (hn : name.data ≠ []) (hns : '/' ∉ name.data) :
    parse_repository
        (scheme ++ slashPath ((A ++ "." ++ B) :: (segs ++ [owner, name]))) w =
      Except.ok
        { website := w, owner := owner, name := name,
          origin := A ++ "." ++ B, sub_path := subPathString segs,
          passed_string :=
            scheme ++ slashPath ((A ++ "." ++ B) :: (segs ++ [owner, name])) } := by
  have hhostdata : (A ++ "." ++ B).data = A.data ++ '.' :: B.data := by
    rw [String.data_append, String.data_append, List.append_assoc]
    rfl
  have hh : '/' ∉ A.data ++ '.' :: B.data := by
    intro hmem
    rcases List.mem_append.mp hmem with h | h
    · exact hAs h
    · rcases List.mem_cons.mp h with h | h
      · exact absurd h (by decide)
      · exact hBs h
  have hdot : dotted (A.data ++ '.' :: B.data) = true := dotted_decomp _ _ hA hB
  have hne1 : A.data ++ '.' :: B.data ≠ "http:".data := by
    intro h
    have hdotmem : ('.' : Char) ∈ "http:".data := by
      rw [← h]
      exact List.mem_append.mpr (Or.inr (List.mem_cons_self _ _))
    exact absurd hdotmem (by decide)
  have hne2 : A.data ++ '.' :: B.data ≠ "https:".data := by
    intro h
    have hdotmem : ('.' : Char) ∈ "https:".data := by
      rw [← h]
      exact List.mem_append.mpr (Or.inr (List.mem_cons_self _ _))
    exact absurd hdotmem (by decide)
  have hlist : ((A ++ "." ++ B) :: (segs ++ [owner, name])).map String.data =
      (A.data ++ '.' :: B.data) ::
        (segs.map String.data ++ [owner.data, name.data]) := by
    rw [List.map_cons, hhostdata, List.map_append]
    rfl
  have hpathdata :
      (slashPath ((A ++ "." ++ B) :: (segs ++ [owner, name]))).data =
      joinSlash ((A.data ++ '.' :: B.data) ::
        (segs.map String.data ++ [owner.data, name.data])) := by
    rw [slashPath_data, hlist]
  have htail_ne : segs.map String.data ++ [owner.data, name.data] ≠ [] := by
    simp
  have hjoin : joinSlash ((A.data ++ '.' :: B.data) ::
      (segs.map String.data ++ [owner.data, name.data])) =
      (A.data ++ '.' :: B.data) ++
        '/' :: joinSlash (segs.map String.data ++ [owner.data, name.data]) :=
    joinSlash_cons_of_ne _ _ htail_ne
  have hmids : ∀ m ∈ segs.map String.data, m ≠ [] ∧ '/' ∉ m := by
    intro m hm
    rcases List.mem_map.mp hm with ⟨s, hs, rfl⟩
    exact hsegs s hs
  have hcore := gitea_core_complete (A.data ++ '.' :: B.data)
    (segs.map String.data) owner.data name.data hdot hh hmids ho hos hn hns
  have hstrip : scheme_strip
      ((scheme ++ slashPath ((A ++ "." ++ B) :: (segs ++ [owner, name]))).data) =
      joinSlash ((A.data ++ '.' :: B.data) ::
        (segs.map String.data ++ [owner.data, name.data])) := by
    rw [String.data_append, hpathdata]
    rcases hscheme with rfl | rfl | rfl
    · show scheme_strip ([] ++ _) = _
      rw [List.nil_append, hjoin, scheme_strip_no_scheme _ _ hh hne1 hne2]
    · rw [scheme_strip_http]
    · rw [scheme_strip_https]
  have hgm : gitea_match
      ((scheme ++ slashPath ((A ++ "." ++ B) :: (segs ++ [owner, name]))).data) =
      some (A.data ++ '.' :: B.data, subPathOf (segs.map String.data),
        owner.data, name.data) := by
    rw [gitea_match, hstrip, hcore]
  have e_origin : String.mk (A.data ++ '.' :: B.data) = A ++ "." ++ B := by
    rw [← hhostdata]
  have e_sub : String.mk (subPathOf (segs.map String.data)) =
      subPathString segs := by
    rw [← subPathString_data]
  rcases hw with rfl | rfl
  · simp only [parse_repository, hgm, e_origin, e_sub]
  · simp only [parse_repository, hgm, e_origin, e_sub]

/-- Witness for claim C4: the sub-path instance
"https://example.com/gitea/owner/repo" (one intermediate segment). -/
theorem grd_C4_gitea_gitlab_sub_path_witness :
    parse_repository
        ("https://" ++
          slashPath (("example" ++ "." ++ "com") :: (["gitea"] ++ ["owner", "repo"])))
        GitWebsite.Gitea =
      Except.ok
        { website := GitWebsite.Gitea, owner := "owner", name := "repo",
          origin := "example" ++ "." ++ "com",
          sub_path := subPathString ["gitea"],
          passed_string :=
            "https://" ++
              slashPath (("example" ++ "." ++ "com") ::
                (["gitea"] ++ ["owner", "repo"])) } :=
  grd_C4_gitea_gitlab_sub_path "https://" "example" "com" ["gitea"] "owner"
    "repo" GitWebsite.Gitea (Or.inr (Or.inr rfl)) (Or.inl rfl) (by decide)
    (by decide) (by decide) (by decide) (by decide) (by decide) (by decide)
    (by decide) (by decide)
